import Mathlib

/-
Verification of the posv0 proof-of-stake blockchain node.

This file gives a shallow embedding of the node's core data model and
operations (blockchain_core.py, pos_consensus.py, p2p_network.py) and
proves, or refutes, the specified properties of the ledger, the stake
registry, the Tendermint-style voting engine and the peer-sync handlers.

Modelling conventions:
 - Python floats (amounts, fees, timestamps, stake ages) are modelled as
   exact rationals.
 - Python dicts keyed by strings are modelled as association lists in
   insertion order, mirroring Python's ordered dicts.
 - The SHA-256 hashes of transactions and blocks are computed in the
   source over a JSON rendering that embeds Python float `repr`; the model
   abstracts those two hash functions as parameters `calcTxHash` and
   `calcBlockHash` of the operations that use them.  Both read exactly the
   fields the source hashes: everything except the stored hash (and, for
   transactions, except the signature).  The proposer-selection seed hash,
   which hashes a plain integer string, is modelled exactly by the SHA-256
   implementation below.
-/

namespace Posv0

/-- Fields of a transaction covered by `Transaction.calculate_hash`
(everything except `signature` and the stored `hash`). -/
structure TxContent where
  sender : String
  recipient : String
  amount : ℚ
  fee : ℚ
  timestamp : ℚ
  transaction_id : String
deriving DecidableEq

/-- A transaction (blockchain_core.Transaction). -/
structure Transaction where
  sender : String
  recipient : String
  amount : ℚ
  fee : ℚ
  timestamp : ℚ
  transaction_id : String
  signature : Option String
  hash : String
deriving DecidableEq

/-- The hashed content of a transaction. -/
def Transaction.content (t : Transaction) : TxContent :=
  ⟨t.sender, t.recipient, t.amount, t.fee, t.timestamp, t.transaction_id⟩

/-- A block (blockchain_core.Block). -/
structure Block where
  index : ℤ
  timestamp : ℚ
  transactions : List Transaction
  previous_hash : String
  validator : String
  nonce : ℕ
  hash : String
deriving DecidableEq

/-- Fields of a block covered by `Block.calculate_hash`
(everything except the stored `hash`; note the transaction dicts it
serializes do include each transaction's signature and stored hash). -/
structure BlockContent where
  index : ℤ
  timestamp : ℚ
  transactions : List Transaction
  previous_hash : String
  validator : String
  nonce : ℕ
deriving DecidableEq

/-- The hashed content of a block. -/
def Block.content (b : Block) : BlockContent :=
  ⟨b.index, b.timestamp, b.transactions, b.previous_hash, b.validator, b.nonce⟩

/-- Node-local chain state (blockchain_core.Blockchain). -/
structure Blockchain where
  chain : List Block
  pending_transactions : List Transaction
  block_confirmations : List (String × ℕ)
  finalized_blocks : List String
  confirmation_threshold : ℕ
deriving DecidableEq

section Ledger

variable (calcTxHash : TxContent → String) (calcBlockHash : BlockContent → String)

/-- blockchain_core.Transaction.is_valid: the signature must be present
(it is not cryptographically verified) and the stored hash must equal the
recomputed content hash. -/
def Transaction.is_valid (t : Transaction) : Bool :=
  t.signature.isSome && (t.hash == calcTxHash t.content)

/-- blockchain_core.Blockchain.add_transaction: append to the pending pool
iff the transaction is valid.  Returns the new state and the success flag. -/
def Blockchain.add_transaction (bc : Blockchain) (t : Transaction) :
    Blockchain × Bool :=
  if t.is_valid calcTxHash then
    ({ bc with pending_transactions := bc.pending_transactions ++ [t] }, true)
  else
    (bc, false)

/-- blockchain_core.Blockchain.is_valid_block: index must equal the chain
length, previous_hash must equal the tip's hash, the stored hash must equal
the recomputed hash, and every transaction must be valid.  (The source
would raise on an empty chain when reading the tip; the model returns
false there; all theorems below assume a nonempty chain, which `__init__`
guarantees via the genesis block.) -/
def Blockchain.is_valid_block (bc : Blockchain) (b : Block) : Bool :=
  (b.index == (bc.chain.length : ℤ)) &&
  (match bc.chain.getLast? with
   | some tip => b.previous_hash == tip.hash
   | none => false) &&
  (b.hash == calcBlockHash b.content) &&
  b.transactions.all (fun t => t.is_valid calcTxHash)

/-- blockchain_core.Blockchain.add_block: validate, then append. -/
def Blockchain.add_block (bc : Blockchain) (b : Block) : Blockchain × Bool :=
  if bc.is_valid_block calcTxHash calcBlockHash b then
    ({ bc with chain := bc.chain ++ [b] }, true)
  else
    (bc, false)

/-- blockchain_core.Blockchain.is_chain_valid: every block from index 1 on
must have a correct stored hash and link to its predecessor's hash. -/
def Blockchain.is_chain_valid (bc : Blockchain) : Bool :=
  (bc.chain.zip bc.chain.tail).all fun pc =>
    (pc.2.hash == calcBlockHash pc.2.content) && (pc.2.previous_hash == pc.1.hash)

end Ledger

/-- Serialized chain data (blockchain_core.Blockchain.to_dict /
the payload of a BLOCKCHAIN_RESPONSE): only the chain and the pending
pool are serialized; confirmation counters and the finalized set are not. -/
structure BlockchainDict where
  chain : List Block
  pending_transactions : List Transaction
deriving DecidableEq

/-- blockchain_core.Blockchain.from_dict: rebuild a Blockchain from
serialized data.  `cls()` initializes empty confirmation counters, an
empty finalized set and threshold 6; only chain and pending transactions
are restored from the dict. -/
def Blockchain.from_dict (d : BlockchainDict) : Blockchain :=
  { chain := d.chain
    pending_transactions := d.pending_transactions
    block_confirmations := []
    finalized_blocks := []
    confirmation_threshold := 6 }

/-- blockchain_core.Blockchain.to_dict. -/
def Blockchain.to_dict (bc : Blockchain) : BlockchainDict :=
  ⟨bc.chain, bc.pending_transactions⟩

/-! ### Stake registry (pos_consensus.POSConsensus) -/

/-- pos_consensus.StakeInfo.  `age` is the mutable field set by
`update_age` (in days); it starts at 0 for a fresh stake. -/
structure StakeInfo where
  address : String
  amount : ℚ
  timestamp : ℚ
  age : ℚ
deriving DecidableEq

/-- pos_consensus.StakeInfo.update_age. -/
def StakeInfo.update_age (si : StakeInfo) (current_time : ℚ) : StakeInfo :=
  { si with age := (current_time - si.timestamp) / (24 * 60 * 60) }

/-- pos_consensus.StakeInfo.get_weight: amount times age capped at 90 days. -/
def StakeInfo.get_weight (si : StakeInfo) : ℚ :=
  si.amount * min si.age 90

/-- The mutable state of pos_consensus.POSConsensus that staking touches:
the stake dict (insertion-ordered) and the validator list. -/
structure POSState where
  stakes : List (String × StakeInfo)
  validators : List String
  min_stake_amount : ℚ
deriving DecidableEq

/-- Dict lookup on an association list (first binding wins, as in a dict
with unique keys). -/
def lookupStake (stakes : List (String × StakeInfo)) (a : String) :
    Option StakeInfo :=
  (stakes.find? (fun p => p.1 == a)).map (·.2)

/-- In-place dict update: replace the value at a key, keeping its position. -/
def setStake (stakes : List (String × StakeInfo)) (a : String)
    (si : StakeInfo) : List (String × StakeInfo) :=
  stakes.map (fun p => if p.1 == a then (p.1, si) else p)

/-- Dict deletion. -/
def eraseStake (stakes : List (String × StakeInfo)) (a : String) :
    List (String × StakeInfo) :=
  stakes.filter (fun p => !(p.1 == a))

/-- pos_consensus.POSConsensus.add_stake: a below-minimum amount only
prints a warning; an existing record has its amount incremented in place
(timestamp and age untouched); a new record is created with `depositedAt`
= now and age 0; the address is appended to the validator list if absent.
Always returns True. -/
def POSState.add_stake (st : POSState) (now : ℚ) (address : String)
    (amount : ℚ) : POSState × Bool :=
  let stakes1 :=
    match lookupStake st.stakes address with
    | some si => setStake st.stakes address { si with amount := si.amount + amount }
    | none => st.stakes ++ [(address, ⟨address, amount, now, 0⟩)]
  let validators1 :=
    if address ∈ st.validators then st.validators
    else st.validators ++ [address]
  ({ st with stakes := stakes1, validators := validators1 }, true)

/-- pos_consensus.POSConsensus.remove_stake: fails (False, no change) when
the address has no record or the amount exceeds the recorded stake;
otherwise decrements, drops the address from the validator list when the
remainder is below the minimum, and deletes the record when it hits zero. -/
def POSState.remove_stake (st : POSState) (address : String) (amount : ℚ) :
    POSState × Bool :=
  match lookupStake st.stakes address with
  | none => (st, false)
  | some si =>
    if si.amount < amount then (st, false)
    else
      let si1 : StakeInfo := { si with amount := si.amount - amount }
      let stakes1 := setStake st.stakes address si1
      let validators1 :=
        if si1.amount < st.min_stake_amount ∧ address ∈ st.validators then
          st.validators.erase address
        else st.validators
      let stakes2 := if si1.amount = 0 then eraseStake stakes1 address else stakes1
      ({ st with stakes := stakes2, validators := validators1 }, true)

/-! ### SHA-256 (hashlib.sha256), used for the proposer-selection seed -/

namespace SHA256

/-- 2^32, the word modulus. -/
def wordMod : ℕ := 4294967296

/-- Rotate a 32-bit word right by `n`. -/
def rotr (n x : ℕ) : ℕ := ((x >>> n) ||| (x <<< (32 - n))) % wordMod

def ch (x y z : ℕ) : ℕ := (x &&& y) ^^^ ((x ^^^ 4294967295) &&& z)

def maj (x y z : ℕ) : ℕ := (x &&& y) ^^^ (x &&& z) ^^^ (y &&& z)

def bigS0 (x : ℕ) : ℕ := rotr 2 x ^^^ rotr 13 x ^^^ rotr 22 x

def bigS1 (x : ℕ) : ℕ := rotr 6 x ^^^ rotr 11 x ^^^ rotr 25 x

def smallS0 (x : ℕ) : ℕ := rotr 7 x ^^^ rotr 18 x ^^^ (x >>> 3)

def smallS1 (x : ℕ) : ℕ := rotr 17 x ^^^ rotr 19 x ^^^ (x >>> 10)

/-- The 64 round constants. -/
def K : List ℕ :=
  [1116352408, 1899447441, 3049323471, 3921009573,
   961987163, 1508970993, 2453635748, 2870763221,
   3624381080, 310598401, 607225278, 1426881987,
   1925078388, 2162078206, 2614888103, 3248222580,
   3835390401, 4022224774, 264347078, 604807628,
   770255983, 1249150122, 1555081692, 1996064986,
   2554220882, 2821834349, 2952996808, 3210313671,
   3336571891, 3584528711, 113926993, 338241895,
   666307205, 773529912, 1294757372, 1396182291,
   1695183700, 1986661051, 2177026350, 2456956037,
   2730485921, 2820302411, 3259730800, 3345764771,
   3516065817, 3600352804, 4094571909, 275423344,
   430227734, 506948616, 659060556, 883997877,
   958139571, 1322822218, 1537002063, 1747873779,
   1955562222, 2024104815, 2227730452, 2361852424,
   2428436474, 2756734187, 3204031479, 3329325298]

/-- The eight working words of the compression state. -/
structure Digest8 where
  a : ℕ
  b : ℕ
  c : ℕ
  d : ℕ
  e : ℕ
  f : ℕ
  g : ℕ
  h : ℕ
deriving DecidableEq

def initDigest : Digest8 :=
  ⟨1779033703, 3144134277, 1013904242, 2773480762,
   1359893119, 2600822924, 528734635, 1541459225⟩

/-- One compression round. -/
def step (s : Digest8) (kw : ℕ × ℕ) : Digest8 :=
  let t1 := (s.h + bigS1 s.e + ch s.e s.f s.g + kw.1 + kw.2) % wordMod
  let t2 := (bigS0 s.a + maj s.a s.b s.c) % wordMod
  ⟨(t1 + t2) % wordMod, s.a, s.b, s.c, (s.d + t1) % wordMod, s.e, s.f, s.g⟩

/-- Extend a 16-word block to the 64-word message schedule. -/
def schedule (ws : List ℕ) : List ℕ :=
  (List.range 48).foldl
    (fun w _ =>
      let n := w.length
      w ++ [(smallS1 (w.getD (n - 2) 0) + w.getD (n - 7) 0 +
             smallS0 (w.getD (n - 15) 0) + w.getD (n - 16) 0) % wordMod])
    ws

/-- Compress one 16-word block into the running digest. -/
def compress (s : Digest8) (ws : List ℕ) : Digest8 :=
  let f := (K.zip (schedule ws)).foldl step s
  ⟨(s.a + f.a) % wordMod, (s.b + f.b) % wordMod, (s.c + f.c) % wordMod,
   (s.d + f.d) % wordMod, (s.e + f.e) % wordMod, (s.f + f.f) % wordMod,
   (s.g + f.g) % wordMod, (s.h + f.h) % wordMod⟩

/-- Append the 0x80 byte, zero padding and the 64-bit big-endian bit length. -/
def pad (msg : List ℕ) : List ℕ :=
  let len := msg.length
  msg ++ [128] ++ List.replicate ((64 - (len + 9) % 64) % 64) 0 ++
    (List.range 8).map (fun i => ((len * 8) >>> (8 * (7 - i))) % 256)

/-- Group bytes into big-endian 32-bit words. -/
def toWords (bytes : List ℕ) : List ℕ :=
  (List.range (bytes.length / 4)).map (fun i =>
    bytes.getD (4 * i) 0 * 16777216 + bytes.getD (4 * i + 1) 0 * 65536 +
    bytes.getD (4 * i + 2) 0 * 256 + bytes.getD (4 * i + 3) 0)

/-- SHA-256 of a byte string, as the 256-bit digest read as a natural
number (the source's `int(hashlib.sha256(data).hexdigest(), 16)`). -/
def sha256Nat (msg : List ℕ) : ℕ :=
  let ws := toWords (pad msg)
  let final := (List.range (ws.length / 16)).foldl
    (fun s i => compress s ((ws.drop (16 * i)).take 16)) initDigest
  ((((((final.a * wordMod + final.b) * wordMod + final.c) * wordMod +
      final.d) * wordMod + final.e) * wordMod + final.f) * wordMod +
      final.g) * wordMod + final.h

end SHA256

/-- UTF-8 bytes of a string; for the ASCII strings hashed here each byte
is the character's code point. -/
def strBytes (s : String) : List ℕ := s.toList.map Char.toNat

/-! ### Tendermint engine (pos_consensus.TendermintConsensus) -/

/-- The seed for proposer selection at a (height, round):
`int(sha256(f"{height}_{round}").hexdigest(), 16)`. -/
def proposerSeedHash (height round : ℕ) : ℕ :=
  SHA256.sha256Nat (strBytes (toString height ++ "_" ++ toString round))

/-- The weighted-selection loop of select_proposer: accumulate weights and
return the first validator whose cumulative weight exceeds the target. -/
def pickByWeight : List (String × ℚ) → ℚ → ℚ → Option String
  | [], _, _ => none
  | (v, w) :: rest, acc, r =>
    if acc + w > r then some v else pickByWeight rest (acc + w) r

/-- The per-validator weights read by select_proposer: the stake record's
weight, or 0 for a validator with no stake record. -/
def validatorWeights (stakes : List (String × StakeInfo))
    (validators : List String) : List ℚ :=
  validators.map (fun v =>
    match lookupStake stakes v with
    | some si => si.get_weight
    | none => 0)

/-- pos_consensus.TendermintConsensus.select_proposer: validators are
taken in list (registration) order; with zero total weight the proposer is
`validators[seed mod n]`; otherwise the target is the real number
`(seed / 2^256) * totalWeight` (the source's float division modelled as an
exact rational) and the first validator whose cumulative weight exceeds it
wins, with the first validator as a fallback. -/
def select_proposer (height round : ℕ) (validators : List String)
    (stakes : List (String × StakeInfo)) : Option String :=
  let seedHash := proposerSeedHash height round
  if validators.isEmpty then none
  else
    let weights := validatorWeights stakes validators
    let total := weights.sum
    if total = 0 then validators.get? (seedHash % validators.length)
    else
      let r : ℚ := ((seedHash : ℚ) / 2 ^ 256) * total
      match pickByWeight (validators.zip weights) 0 r with
      | some v => some v
      | none => validators.head?

/-- Insert into an address-sorted list. -/
def insertSorted (x : String) : List String → List String
  | [] => [x]
  | y :: ys => if x < y then x :: y :: ys else y :: insertSorted x ys

/-- Sort addresses lexicographically (insertion sort). -/
def sortByAddress : List String → List String
  | [] => []
  | x :: xs => insertSorted x (sortByAddress xs)

/-- Rational generalization of `seed mod totalWeight`. -/
def qmod (a b : ℚ) : ℚ := a - b * ⌊a / b⌋

/-- Transcription of the SPEC's proposer-selection algorithm (not of the
source), for comparison with `select_proposer`: sort validators by
address, walk `seed mod totalWeight` cumulatively over their weights, and
with zero total weight fall back to `seed mod validatorCount` in
address-sorted order. -/
def spec_select_proposer (height round : ℕ) (validators : List String)
    (stakes : List (String × StakeInfo)) : Option String :=
  let seedHash := proposerSeedHash height round
  if validators.isEmpty then none
  else
    let sorted := sortByAddress validators
    let weights := validatorWeights stakes sorted
    let total := weights.sum
    if total = 0 then sorted.get? (seedHash % validators.length)
    else pickByWeight (sorted.zip weights) 0 (qmod (seedHash : ℚ) total)

/-- A recorded prepare/commit vote (the dict value stored by
prepare_vote / commit_vote). -/
structure Vote where
  block_hash : String
  signature : String
deriving DecidableEq

/-- pos_consensus.TendermintConsensus.check_prepare_quorum: with at most
one validator any recorded vote suffices; otherwise the number of recorded
votes must reach `(n * 2) // 3 + 1`. -/
def check_prepare_quorum (prepare_votes : List (String × Vote))
    (validators : List String) : Bool :=
  if validators.length ≤ 1 then decide (0 < prepare_votes.length)
  else decide (validators.length * 2 / 3 + 1 ≤ prepare_votes.length)

/-- pos_consensus.TendermintConsensus.check_commit_quorum: identical rule
over the commit votes. -/
def check_commit_quorum (commit_votes : List (String × Vote))
    (validators : List String) : Bool :=
  if validators.length ≤ 1 then decide (0 < commit_votes.length)
  else decide (validators.length * 2 / 3 + 1 ≤ commit_votes.length)

/-- Transcription of the SPEC's quorum rule (not of the source), for
comparison: a hash has quorum iff the sum of the stake weights of the
validators who voted for that exact hash exceeds 2/3 of the total
validator stake weight. -/
def spec_quorum (weights : List (String × ℚ))
    (votes : List (String × String)) (target : String) : Bool :=
  let votedWeight : ℚ :=
    ((weights.filter (fun p =>
        votes.any (fun q => q.1 == p.1 && q.2 == target))).map (·.2)).sum
  let totalWeight : ℚ := (weights.map (·.2)).sum
  decide (votedWeight > 2 / 3 * totalWeight)

/-! ### Peer message handlers (p2p_network.P2PNode) -/

/-- Placeholder block used to totalize Python's `chain[i]`; every access
below is guarded so that it is never read. -/
def defaultBlock : Block :=
  ⟨0, 0, [], "", "", 0, ""⟩

section P2P

variable (calcTxHash : TxContent → String) (calcBlockHash : BlockContent → String)

/-- p2p_network.P2PNode.handle_new_block.  Returns the new chain state and
whether a full-chain synchronization was requested (the handler calls
`synchronize_blockchain()` when the incoming index is ahead of the local
chain; that network interaction is modelled as a request flag).  A block
whose hash is already in the chain is ignored; an index mismatch aborts;
then proof-of-work (`verify_work`, an external check) gates validation and
append. -/
def handle_new_block (verify_work : Block → Bool) (bc : Blockchain)
    (b : Block) : Blockchain × Bool :=
  if bc.chain.any (fun x => x.hash == b.hash) then (bc, false)
  else if b.index ≠ (bc.chain.length : ℤ) then
    (bc, decide ((bc.chain.length : ℤ) < b.index))
  else if !(verify_work b) then (bc, false)
  else if bc.is_valid_block calcTxHash calcBlockHash b then
    ((bc.add_block calcTxHash calcBlockHash b).1, false)
  else (bc, false)

/-- p2p_network.P2PNode.handle_new_transaction: just
`blockchain.add_transaction` on the parsed transaction. -/
def handle_new_transaction (bc : Blockchain) (t : Transaction) : Blockchain :=
  (bc.add_transaction calcTxHash t).1

end P2P

/-- The re-pooling loop run when a fork replaces a chain suffix: each
transaction of each dropped block is appended to the pending pool unless a
transaction with the same id is already pending. -/
def returnTxsToPool (pool : List Transaction) (dropped : List Block) :
    List Transaction :=
  dropped.foldl
    (fun p blk =>
      blk.transactions.foldl
        (fun q tx =>
          if q.any (fun t => t.transaction_id == tx.transaction_id) then q
          else q ++ [tx])
        p)
    pool

/-- The generic branch of p2p_network.P2PNode.handle_fork: find the fork
point (the parent of the incoming block inside the local chain), build the
candidate chain, and replace only when it is strictly longer. -/
def handle_fork_general (bc : Blockchain) (b : Block) : Blockchain × Bool :=
  let fork_point := (List.range bc.chain.length).find? (fun (i : ℕ) =>
    ((i : ℤ) == b.index - 1) && ((bc.chain.getD i defaultBlock).hash == b.previous_hash))
  match fork_point with
  | none => (bc, false)
  | some fp =>
    let fork_chain := bc.chain.take (fp + 1) ++ [b]
    if bc.chain.length < fork_chain.length then
      ({ bc with
          chain := fork_chain,
          pending_transactions :=
            returnTxsToPool bc.pending_transactions (bc.chain.drop (fp + 1)) },
        true)
    else (bc, false)

/-- p2p_network.P2PNode.handle_fork: an incoming block-1 candidate based
on the local genesis block competes with the local block 1 by
lexicographic hash comparison (smaller hash wins, the whole local suffix
is dropped and its transactions re-pooled); every other shape goes through
the generic fork-point branch. -/
def handle_fork (bc : Blockchain) (b : Block) : Blockchain × Bool :=
  match bc.chain with
  | g :: l :: rest =>
    if b.index = 1 then
      if b.previous_hash == g.hash then
        if b.hash < l.hash then
          ({ bc with
              chain := [g, b],
              pending_transactions :=
                returnTxsToPool bc.pending_transactions (l :: rest) },
            true)
        else (bc, false)
      else handle_fork_general bc b
    else handle_fork_general bc b
  | _ => handle_fork_general bc b

/-- Python's `range(lo, hi + 1)`. -/
def intRange (lo hi : ℤ) : List ℤ :=
  (List.range (hi + 1 - lo).toNat).map (fun (k : ℕ) => lo + (k : ℤ))

/-- p2p_network.P2PNode.handle_block_request: clamp the requested range to
`[max(0, start), min(len - 1, end)]` and collect the chain's blocks over
that range (each access still guarded by `i < len`). -/
def handle_block_request (bc : Blockchain) (start_index end_index : ℤ) :
    List Block :=
  let s := max 0 start_index
  let e := min ((bc.chain.length : ℤ) - 1) end_index
  (intRange s e).foldl
    (fun acc i =>
      if i < (bc.chain.length : ℤ) then acc ++ [bc.chain.getD i.toNat defaultBlock]
      else acc)
    []

/-- The adoption step of p2p_network.P2PNode.synchronize_blockchain for
one peer response: parse the serialized chain, discard it unless it is
valid and strictly longer than the local chain, and otherwise replace the
local blockchain object with the parsed one, re-appending each old pending
transaction whose id appears in no block of the adopted chain. -/
def try_adopt (calcBlockHash : BlockContent → String) (bc : Blockchain)
    (d : BlockchainDict) : Blockchain :=
  let received := Blockchain.from_dict d
  if !(received.is_chain_valid calcBlockHash) then bc
  else if received.chain.length ≤ bc.chain.length then bc
  else
    let kept := bc.pending_transactions.filter (fun tx =>
      !(received.chain.any (fun blk =>
        (blk.transactions.any (fun t => t.transaction_id == tx.transaction_id)) &&
        !(blk.transactions.isEmpty))))
    { received with
        pending_transactions := received.pending_transactions ++ kept }

/-! ### Helper lemmas -/

theorem lookupStake_cons (q : String × StakeInfo)
    (l : List (String × StakeInfo)) (b : String) :
    lookupStake (q :: l) b = if q.1 == b then some q.2 else lookupStake l b := by
  rcases Bool.eq_false_or_eq_true (q.1 == b) with h | h <;>
    simp [lookupStake, List.find?_cons, h]

theorem lookupStake_setStake (stakes : List (String × StakeInfo))
    (a : String) (si : StakeInfo) (h : (lookupStake stakes a).isSome) :
    lookupStake (setStake stakes a si) a = some si := by
  induction stakes with
  | nil => simp [lookupStake] at h
  | cons q l ih =>
    have hset : setStake (q :: l) a si =
        (if q.1 == a then (q.1, si) else q) :: setStake l a si := rfl
    rcases Bool.eq_false_or_eq_true (q.1 == a) with ha | ha
    · rw [hset, lookupStake_cons]
      simp [ha]
    · rw [hset, lookupStake_cons]
      simp only [ha, Bool.false_eq_true, if_false]
      apply ih
      rw [lookupStake_cons] at h
      simpa [ha] using h

theorem lookupStake_append_new (stakes : List (String × StakeInfo))
    (a : String) (si : StakeInfo) (h : lookupStake stakes a = none) :
    lookupStake (stakes ++ [(a, si)]) a = some si := by
  induction stakes with
  | nil => simp [lookupStake, List.find?]
  | cons q l ih =>
    rw [lookupStake_cons] at h
    rcases Bool.eq_false_or_eq_true (q.1 == a) with ha | ha
    · simp [ha] at h
    · rw [List.cons_append, lookupStake_cons]
      simp only [ha, Bool.false_eq_true, if_false]
      exact ih (by simpa [ha] using h)

/-! ### Claim C7 -/

/-- C7: for every address with a stake record, removing more stake than
the record holds fails (returns False) and leaves the whole staking state
— the record included — unchanged. -/
theorem C7_remove_stake_insufficient (st : POSState) (address : String)
    (amount : ℚ) (si : StakeInfo)
    (hrec : lookupStake st.stakes address = some si)
    (hgt : si.amount < amount) :
    st.remove_stake address amount = (st, false) := by
  unfold POSState.remove_stake
  rw [hrec]
  simp [hgt]

/-- C7 witness: after `addStake("X", 50)` on a fresh registry,
`removeStake("X", 60)` fails and the state (stake 50 included) is
unchanged. -/
theorem C7_witness :
    ((POSState.mk [] [] 10).add_stake 0 "X" 50).1.remove_stake "X" 60 =
      (((POSState.mk [] [] 10).add_stake 0 "X" 50).1, false) :=
  C7_remove_stake_insufficient _ "X" 60 ⟨"X", 50, 0, 0⟩ (by decide) (by norm_num)

theorem lookupStake_setStake_ne (stakes : List (String × StakeInfo))
    (a b : String) (si : StakeInfo) (hne : a ≠ b) :
    lookupStake (setStake stakes a si) b = lookupStake stakes b := by
  induction stakes with
  | nil => rfl
  | cons q l ih =>
    have hset : setStake (q :: l) a si =
        (if q.1 == a then (q.1, si) else q) :: setStake l a si := rfl
    rw [hset, lookupStake_cons, lookupStake_cons, ih]
    rcases Bool.eq_false_or_eq_true (q.1 == a) with ha | ha
    · have hqa : q.1 = a := by simpa using ha
      have hb : (q.1 == b) = false := by
        rw [hqa]
        exact beq_eq_false_iff_ne.mpr hne
      simp [ha, hb]
    · simp [ha]

theorem lookupStake_append_ne (stakes : List (String × StakeInfo))
    (a b : String) (si : StakeInfo) (hne : a ≠ b) :
    lookupStake (stakes ++ [(a, si)]) b = lookupStake stakes b := by
  have ha : (a == b) = false := by simp [hne]
  induction stakes with
  | nil => simp [lookupStake, List.find?, ha]
  | cons q l ih =>
    rw [List.cons_append, lookupStake_cons, lookupStake_cons, ih]

/-! ### Claim C8 -/

/-- C8: addStake always reports success and ensures the address is a
validator; on an address that already has a stake record it increments
only that record's amount, preserving the record's deposit timestamp (and
age) and every other address's record; only a brand-new record gets
`depositedAt = now` (and age 0). -/
theorem C8_add_stake_preserves_deposit_time (st : POSState) (now : ℚ)
    (address : String) (amount : ℚ) :
    (st.add_stake now address amount).2 = true ∧
    address ∈ (st.add_stake now address amount).1.validators ∧
    (∀ si, lookupStake st.stakes address = some si →
      lookupStake (st.add_stake now address amount).1.stakes address =
        some { si with amount := si.amount + amount }) ∧
    (lookupStake st.stakes address = none →
      lookupStake (st.add_stake now address amount).1.stakes address =
        some ⟨address, amount, now, 0⟩) ∧
    (∀ other, other ≠ address →
      lookupStake (st.add_stake now address amount).1.stakes other =
        lookupStake st.stakes other) := by
  refine ⟨rfl, ?_, ?_, ?_, ?_⟩
  · unfold POSState.add_stake
    by_cases hv : address ∈ st.validators <;> simp [hv]
  · intro si hsi
    unfold POSState.add_stake
    rw [hsi]
    exact lookupStake_setStake _ _ _ (by simp [hsi])
  · intro hnone
    unfold POSState.add_stake
    rw [hnone]
    exact lookupStake_append_new _ _ _ hnone
  · intro other hother
    unfold POSState.add_stake
    cases hsi : lookupStake st.stakes address with
    | some si =>
      simp only [hsi]
      exact lookupStake_setStake_ne _ _ _ _ (fun h => hother h.symm)
    | none =>
      simp only [hsi]
      exact lookupStake_append_ne _ _ _ _ (fun h => hother h.symm)

/-- C8 witness: topping up an existing stake of 50 (deposited at time 100)
by 25 at time 999 yields amount 75 with the original deposit time 100, and
the address stays a validator. -/
theorem C8_witness :
    lookupStake ((POSState.mk [("X", ⟨"X", 50, 100, 0⟩)] ["X"] 10).add_stake
      999 "X" 25).1.stakes "X" = some ⟨"X", 75, 100, 0⟩ :=
  ((C8_add_stake_preserves_deposit_time
      (POSState.mk [("X", ⟨"X", 50, 100, 0⟩)] ["X"] 10) 999 "X" 25).2.2.1
    ⟨"X", 50, 100, 0⟩ (by rfl)).trans (by norm_num)

/-! ### Claim C1 -/

/-- C1 counterexample: three validators with stake weights 100, 1 and 1
(amounts 100/1/1 at age 1 day), where only the weight-100 validator has
voted for the proposed hash.  The spec's stake-weight rule grants quorum
(100 > 2/3 · 102), but the engine's prepare-quorum check denies it: it
counts voters (1 vote < (3·2)//3 + 1 = 3 required), ignoring stake
weights entirely. -/
theorem C1_counterexample :
    spec_quorum
      [("A", (StakeInfo.mk "A" 100 0 1).get_weight),
       ("B", (StakeInfo.mk "B" 1 0 1).get_weight),
       ("C", (StakeInfo.mk "C" 1 0 1).get_weight)]
      [("A", "H")] "H" = true ∧
    check_prepare_quorum [("A", ⟨"H", "sig"⟩)] ["A", "B", "C"] = false := by
  constructor
  · simp [spec_quorum, StakeInfo.get_weight, List.filter]
    norm_num [min_def]
  · rfl

/-- C1 (amended): prepare and commit quorum are decided by validator
head-count, not stake weight: with at most one registered validator a
single recorded vote suffices, and with n ≥ 2 validators quorum holds
exactly when strictly more than 2/3 of the validator count have a
recorded vote (the code's `(n*2)//3 + 1` threshold), whatever the stake
weights are. -/
theorem C1_quorum_by_validator_count
    (prepare_votes commit_votes : List (String × Vote))
    (validators : List String) :
    (validators.length ≤ 1 →
      (check_prepare_quorum prepare_votes validators = true ↔
        prepare_votes ≠ []) ∧
      (check_commit_quorum commit_votes validators = true ↔
        commit_votes ≠ [])) ∧
    (2 ≤ validators.length →
      (check_prepare_quorum prepare_votes validators = true ↔
        2 * validators.length < 3 * prepare_votes.length) ∧
      (check_commit_quorum commit_votes validators = true ↔
        2 * validators.length < 3 * commit_votes.length)) := by
  constructor
  · intro h1
    constructor
    · rw [check_prepare_quorum, if_pos h1]
      simp [List.length_pos]
    · rw [check_commit_quorum, if_pos h1]
      simp [List.length_pos]
  · intro h2
    have h1 : ¬ validators.length ≤ 1 := by omega
    constructor
    · rw [check_prepare_quorum, if_neg h1]
      simp only [decide_eq_true_eq]
      omega
    · rw [check_commit_quorum, if_neg h1]
      simp only [decide_eq_true_eq]
      omega

/-- C1 witness: with validators A, B, C, two prepare votes are still short
of quorum (2·3 ≥ 3·2 fails strictly), while three commit votes reach it. -/
theorem C1_witness :
    check_prepare_quorum [("A", ⟨"H", "s"⟩), ("B", ⟨"H", "s"⟩)]
      ["A", "B", "C"] = false ∧
    check_commit_quorum [("A", ⟨"H", "s"⟩), ("B", ⟨"H", "s"⟩), ("C", ⟨"H", "s"⟩)]
      ["A", "B", "C"] = true := by
  have h := C1_quorum_by_validator_count
    [("A", ⟨"H", "s"⟩), ("B", ⟨"H", "s"⟩)]
    [("A", ⟨"H", "s"⟩), ("B", ⟨"H", "s"⟩), ("C", ⟨"H", "s"⟩)]
    ["A", "B", "C"]
  have h2 := h.2 (by decide)
  constructor
  · rcases Bool.eq_false_or_eq_true
      (check_prepare_quorum [("A", ⟨"H", "s"⟩), ("B", ⟨"H", "s"⟩)]
        ["A", "B", "C"]) with ht | hf
    · exact absurd (h2.1.mp ht) (by decide)
    · exact hf
  · exact h2.2.mpr (by decide)

/-! ### Claim C3 -/

/-- C3 counterexample: (1) an unsigned COINBASE reward transaction is
REJECTED — `is_valid` has no COINBASE exemption, so the spec's "accepted
without a signature" fails; (2) a transaction carrying an arbitrary,
unverifiable signature string is ACCEPTED as long as its stored hash
matches the recomputed content hash — the signature is never verified,
only its presence is checked.  (The hash function is instantiated with a
constant, which both behaviours are independent of: the COINBASE rejection
short-circuits on the missing signature, and the acceptance only needs the
stored hash to equal the recomputed one.) -/
theorem C3_counterexample :
    (Blockchain.mk [] [] [] [] 6).add_transaction (fun _ => "h")
      ⟨"COINBASE", "V", 50, 0, 0, "REWARD_1", none, "h"⟩ =
      (Blockchain.mk [] [] [] [] 6, false) ∧
    (Blockchain.mk [] [] [] [] 6).add_transaction (fun _ => "h")
      ⟨"alice", "bob", 5, 1, 0, "tx1", some "not-a-real-signature", "h"⟩ =
      (Blockchain.mk []
        [⟨"alice", "bob", 5, 1, 0, "tx1", some "not-a-real-signature", "h"⟩]
        [] [] 6, true) := by
  constructor
  · rfl
  · rfl

/-- C3 (amended): `addTransaction` accepts a transaction iff a signature
is present (any string — it is not verified against anything) and the
stored hash equals the recomputed content hash; there is no COINBASE
exemption, and on rejection the pending pool is unchanged. -/
theorem C3_add_transaction_characterization (calcTxHash : TxContent → String)
    (bc : Blockchain) (t : Transaction) :
    (bc.add_transaction calcTxHash t =
        ({ bc with pending_transactions := bc.pending_transactions ++ [t] },
          true) ↔
      (t.signature.isSome = true ∧ t.hash = calcTxHash t.content)) ∧
    (¬ (t.signature.isSome = true ∧ t.hash = calcTxHash t.content) →
      bc.add_transaction calcTxHash t = (bc, false)) := by
  have hval : t.is_valid calcTxHash = true ↔
      (t.signature.isSome = true ∧ t.hash = calcTxHash t.content) := by
    simp [Transaction.is_valid]
  constructor
  · constructor
    · intro h
      rw [← hval]
      by_contra hcon
      have hb : t.is_valid calcTxHash = false := by
        rcases Bool.eq_false_or_eq_true (t.is_valid calcTxHash) with h1 | h1
        · exact absurd h1 hcon
        · exact h1
      rw [Blockchain.add_transaction, hb] at h
      simp at h
    · intro h
      rw [Blockchain.add_transaction, if_pos (hval.mpr h)]
  · intro h
    have hb : t.is_valid calcTxHash = false := by
      rcases Bool.eq_false_or_eq_true (t.is_valid calcTxHash) with h1 | h1
      · exact absurd (hval.mp h1) h
      · exact h1
    rw [Blockchain.add_transaction, hb]
    simp

/-- C3 witness: a signed transaction whose stored hash matches the
recomputed hash is appended to the pool with success. -/
theorem C3_witness :
    (Blockchain.mk [] [] [] [] 6).add_transaction (fun _ => "k")
      ⟨"carol", "dave", 2, 1, 7, "tx9", some "sig", "k"⟩ =
      (Blockchain.mk [] [⟨"carol", "dave", 2, 1, 7, "tx9", some "sig", "k"⟩]
        [] [] 6, true) :=
  ((C3_add_transaction_characterization (fun _ => "k")
      (Blockchain.mk [] [] [] [] 6)
      ⟨"carol", "dave", 2, 1, 7, "tx9", some "sig", "k"⟩).1).mpr
    ⟨rfl, rfl⟩

/-! ### Claim C6 -/

/-- C6: on a nonempty chain, `addBlock` fails and leaves the state
unchanged whenever the block's index differs from the chain length or its
previous_hash differs from the tip's hash; and it appends the block with
success exactly when, in addition, the stored hash equals the recomputed
hash and every contained transaction is valid. -/
theorem C6_add_block_guards (calcTxHash : TxContent → String)
    (calcBlockHash : BlockContent → String) (bc : Blockchain) (b : Block)
    (hne : bc.chain ≠ []) :
    (b.index ≠ (bc.chain.length : ℤ) ∨
        b.previous_hash ≠ (bc.chain.getLast hne).hash →
      bc.add_block calcTxHash calcBlockHash b = (bc, false)) ∧
    (bc.add_block calcTxHash calcBlockHash b =
        ({ bc with chain := bc.chain ++ [b] }, true) ↔
      (b.index = (bc.chain.length : ℤ) ∧
       b.previous_hash = (bc.chain.getLast hne).hash ∧
       b.hash = calcBlockHash b.content ∧
       ∀ t ∈ b.transactions, t.is_valid calcTxHash = true)) := by
  have hlast : bc.chain.getLast? = some (bc.chain.getLast hne) :=
    List.getLast?_eq_getLast bc.chain hne
  have hv : bc.is_valid_block calcTxHash calcBlockHash b = true ↔
      (b.index = (bc.chain.length : ℤ) ∧
       b.previous_hash = (bc.chain.getLast hne).hash ∧
       b.hash = calcBlockHash b.content ∧
       ∀ t ∈ b.transactions, t.is_valid calcTxHash = true) := by
    rw [Blockchain.is_valid_block, hlast]
    simp
    tauto
  constructor
  · intro h
    rcases Bool.eq_false_or_eq_true
      (bc.is_valid_block calcTxHash calcBlockHash b) with ht | hf
    · exact absurd (hv.mp ht) (by tauto)
    · rw [Blockchain.add_block, hf]
      simp
  · constructor
    · intro h
      rcases Bool.eq_false_or_eq_true
        (bc.is_valid_block calcTxHash calcBlockHash b) with ht | hf
      · exact hv.mp ht
      · rw [Blockchain.add_block, hf] at h
        simp at h
    · intro h
      rw [Blockchain.add_block, if_pos (hv.mpr h)]

/-- C6 witness: a block with index 5 offered to a 1-block chain is
rejected with the chain unchanged. -/
theorem C6_witness :
    (Blockchain.mk [⟨0, 0, [], "0", "genesis", 0, "g"⟩] [] [] [] 6).add_block
      (fun _ => "t") (fun _ => "h") ⟨5, 0, [], "g", "v", 0, "x"⟩ =
      (Blockchain.mk [⟨0, 0, [], "0", "genesis", 0, "g"⟩] [] [] [] 6, false) :=
  (C6_add_block_guards (fun _ => "t") (fun _ => "h")
      (Blockchain.mk [⟨0, 0, [], "0", "genesis", 0, "g"⟩] [] [] [] 6)
      ⟨5, 0, [], "g", "v", 0, "x"⟩ (by simp)).1 (Or.inl (by decide))

/-! ### Claim C2 -/

/-- C2 counterexample: delivering the same valid NEW_TRANSACTION gossip
message twice does NOT yield the same pool state as delivering it once —
the pending pool ends with two copies of the transaction, because
`add_transaction` performs no duplicate check. -/
theorem C2_counterexample :
    handle_new_transaction (fun _ => "h")
        (handle_new_transaction (fun _ => "h") (Blockchain.mk [] [] [] [] 6)
          ⟨"alice", "bob", 5, 1, 0, "tx1", some "s", "h"⟩)
        ⟨"alice", "bob", 5, 1, 0, "tx1", some "s", "h"⟩ ≠
      handle_new_transaction (fun _ => "h") (Blockchain.mk [] [] [] [] 6)
        ⟨"alice", "bob", 5, 1, 0, "tx1", some "s", "h"⟩ := by
  decide

/-- C2 (amended): NEW_BLOCK delivery is idempotent — a block whose hash is
already in the chain is silently ignored, and delivering the same block
twice leaves the same chain state as delivering it once (chain
synchronization, triggered when the incoming index is ahead, is modelled
as an external request and changes no local state).  NEW_TRANSACTION
delivery is NOT idempotent: delivering the same valid transaction twice
appends two copies to the pending pool. -/
theorem C2_block_idempotent_transaction_duplicated
    (calcTxHash : TxContent → String) (calcBlockHash : BlockContent → String)
    (vw : Block → Bool) (bc : Blockchain) (b : Block) (t : Transaction) :
    (bc.chain.any (fun x => x.hash == b.hash) = true →
      handle_new_block calcTxHash calcBlockHash vw bc b = (bc, false)) ∧
    (handle_new_block calcTxHash calcBlockHash vw
        (handle_new_block calcTxHash calcBlockHash vw bc b).1 b).1 =
      (handle_new_block calcTxHash calcBlockHash vw bc b).1 ∧
    (t.is_valid calcTxHash = true →
      (handle_new_transaction calcTxHash
          (handle_new_transaction calcTxHash bc t) t).pending_transactions =
        bc.pending_transactions ++ [t, t]) := by
  have noop : ∀ bc1 : Blockchain,
      bc1.chain.any (fun x => x.hash == b.hash) = true →
      handle_new_block calcTxHash calcBlockHash vw bc1 b = (bc1, false) := by
    intro bc1 h1
    rw [handle_new_block, if_pos h1]
  refine ⟨noop bc, ?_, ?_⟩
  · have key : (handle_new_block calcTxHash calcBlockHash vw bc b).1 = bc ∨
        (handle_new_block calcTxHash calcBlockHash vw bc b).1.chain =
          bc.chain ++ [b] := by
      rw [handle_new_block]
      split_ifs with h1 h2 h3 h4
      · exact Or.inl rfl
      · exact Or.inl rfl
      · exact Or.inl rfl
      · right
        rw [Blockchain.add_block, if_pos h4]
      · exact Or.inl rfl
    rcases key with hk | hk
    · rw [hk]
      exact hk
    · have h1 : (handle_new_block calcTxHash calcBlockHash vw bc b).1.chain.any
          (fun x => x.hash == b.hash) = true := by
        rw [hk]
        simp [List.any_append]
      rw [noop _ h1]
  · intro hval
    rw [handle_new_transaction, handle_new_transaction,
      Blockchain.add_transaction, if_pos hval, Blockchain.add_transaction,
      if_pos hval]
    simp

/-- C2 witness: the duplicate-append behaviour evaluated on a fresh node
and a concrete valid transaction: two deliveries leave two pool copies. -/
theorem C2_witness :
    (handle_new_transaction (fun _ => "h")
        (handle_new_transaction (fun _ => "h") (Blockchain.mk [] [] [] [] 6)
          ⟨"carol", "dave", 3, 1, 2, "tx2", some "s", "h"⟩)
        ⟨"carol", "dave", 3, 1, 2, "tx2", some "s", "h"⟩).pending_transactions =
      [] ++ [⟨"carol", "dave", 3, 1, 2, "tx2", some "s", "h"⟩,
             ⟨"carol", "dave", 3, 1, 2, "tx2", some "s", "h"⟩] :=
  (C2_block_idempotent_transaction_duplicated (fun _ => "h") (fun _ => "h")
      (fun _ => true) (Blockchain.mk [] [] [] [] 6) defaultBlock
      ⟨"carol", "dave", 3, 1, 2, "tx2", some "s", "h"⟩).2.2 (by rfl)

/-! ### Claim C9 -/

/-- C9: whenever synchronization adopts a peer chain (the parsed chain is
valid and strictly longer than the local one), the node's blockchain is
replaced by the one rebuilt from the serialized data: its chain is the
peer's chain, and its confirmation counters and finalized set are empty —
whatever confirmations or finality marks the old state had accumulated,
including for blocks that also appear in the adopted chain. -/
theorem C9_adoption_resets_confirmations (calcBlockHash : BlockContent → String)
    (bc : Blockchain) (d : BlockchainDict)
    (hvalid : (Blockchain.from_dict d).is_chain_valid calcBlockHash = true)
    (hlonger : bc.chain.length < d.chain.length) :
    (try_adopt calcBlockHash bc d).chain = d.chain ∧
    (try_adopt calcBlockHash bc d).block_confirmations = [] ∧
    (try_adopt calcBlockHash bc d).finalized_blocks = [] := by
  have hlen : ¬ ((Blockchain.from_dict d).chain.length ≤ bc.chain.length) := by
    simp only [Blockchain.from_dict]
    omega
  rw [try_adopt]
  simp only [hvalid, Bool.not_true, Bool.false_eq_true, if_false, if_neg hlen]
  exact ⟨rfl, rfl, rfl⟩

/-- C9 witness: a node holding one block with 3 recorded confirmations of
hash "h" and "h" marked final adopts a valid 2-block peer chain; the
result carries the peer chain with no confirmations and nothing final. -/
theorem C9_witness :
    (try_adopt (fun _ => "h")
        (Blockchain.mk [⟨0, 0, [], "0", "genesis", 0, "h"⟩] [] [("h", 3)] ["h"] 6)
        ⟨[⟨0, 0, [], "0", "genesis", 0, "h"⟩, ⟨1, 0, [], "h", "v", 0, "h"⟩],
          []⟩).block_confirmations = [] ∧
    (try_adopt (fun _ => "h")
        (Blockchain.mk [⟨0, 0, [], "0", "genesis", 0, "h"⟩] [] [("h", 3)] ["h"] 6)
        ⟨[⟨0, 0, [], "0", "genesis", 0, "h"⟩, ⟨1, 0, [], "h", "v", 0, "h"⟩],
          []⟩).finalized_blocks = [] :=
  (C9_adoption_resets_confirmations (fun _ => "h")
      (Blockchain.mk [⟨0, 0, [], "0", "genesis", 0, "h"⟩] [] [("h", 3)] ["h"] 6)
      ⟨[⟨0, 0, [], "0", "genesis", 0, "h"⟩, ⟨1, 0, [], "h", "v", 0, "h"⟩], []⟩
      (by rfl) (by decide)).2

/-! ### Claim C10 -/

theorem mem_intRange {lo hi i : ℤ} : i ∈ intRange lo hi ↔ lo ≤ i ∧ i ≤ hi := by
  simp only [intRange, List.mem_map, List.mem_range]
  constructor
  · rintro ⟨k, hk, rfl⟩
    omega
  · intro h
    exact ⟨(i - lo).toNat, by omega, by omega⟩

theorem foldl_append_guard {p : ℤ → Prop} [DecidablePred p] (l : List ℤ)
    (f : ℤ → Block) (init : List Block) (h : ∀ i ∈ l, p i) :
    l.foldl (fun acc i => if p i then acc ++ [f i] else acc) init =
      init ++ l.map f := by
  induction l generalizing init with
  | nil => simp
  | cons x xs ih =>
    rw [List.foldl_cons, if_pos (h x (List.mem_cons_self x xs)), List.map_cons,
      ih _ (fun i hi => h i (List.mem_cons_of_mem x hi))]
    simp

theorem intRange_map_getD (chain : List Block) (s e : ℤ) (hs : 0 ≤ s)
    (he : e < (chain.length : ℤ)) :
    (intRange s e).map (fun i => chain.getD i.toNat defaultBlock) =
      (chain.take (e + 1).toNat).drop s.toNat := by
  apply List.ext_getElem?
  intro j
  rw [List.getElem?_map, List.getElem?_drop]
  rw [intRange, List.getElem?_map]
  by_cases hj : j < (e + 1 - s).toNat
  · rw [List.getElem?_range hj]
    have hlt : s.toNat + j < chain.length := by omega
    have htake : s.toNat + j < (e + 1).toNat := by omega
    rw [List.getElem?_take_of_lt htake, List.getElem?_eq_getElem hlt]
    have hidx : (s + (j : ℤ)).toNat = s.toNat + j := by omega
    simp [hidx, List.getD_eq_getElem?_getD, List.getElem?_eq_getElem hlt]
  · have hnone : (List.range ((e + 1 - s).toNat))[j]? = none :=
      List.getElem?_eq_none (by simpa using Nat.le_of_not_lt hj)
    rw [hnone]
    have hlen : (chain.take (e + 1).toNat).length ≤ s.toNat + j := by
      rw [List.length_take]
      omega
    rw [List.getElem?_eq_none hlen]
    rfl

/-- C10: for arbitrary integer request bounds, `handle_block_request`
clamps the range to `[max 0 start, min (len-1) end]`, every index it then
touches is a valid chain position (so no out-of-range access is possible),
and the response is exactly the chain's blocks at the clamped indices in
ascending order — equivalently, the sublist `chain[max 0 start ..
min (len-1) end]` — and is empty when the clamped range is empty. -/
theorem C10_block_request_clamped (bc : Blockchain)
    (start_index end_index : ℤ) :
    (∀ i ∈ intRange (max 0 start_index)
        (min ((bc.chain.length : ℤ) - 1) end_index),
      0 ≤ i ∧ i < (bc.chain.length : ℤ)) ∧
    handle_block_request bc start_index end_index =
      (intRange (max 0 start_index) (min ((bc.chain.length : ℤ) - 1) end_index)).map
        (fun i => bc.chain.getD i.toNat defaultBlock) ∧
    handle_block_request bc start_index end_index =
      (bc.chain.take (min ((bc.chain.length : ℤ) - 1) end_index + 1).toNat).drop
        (max 0 start_index).toNat ∧
    (min ((bc.chain.length : ℤ) - 1) end_index < max 0 start_index →
      handle_block_request bc start_index end_index = []) := by
  have hsafe : ∀ i ∈ intRange (max 0 start_index)
      (min ((bc.chain.length : ℤ) - 1) end_index),
      0 ≤ i ∧ i < (bc.chain.length : ℤ) := by
    intro i hi
    rw [mem_intRange] at hi
    omega
  have hmap : handle_block_request bc start_index end_index =
      (intRange (max 0 start_index)
        (min ((bc.chain.length : ℤ) - 1) end_index)).map
        (fun i => bc.chain.getD i.toNat defaultBlock) := by
    rw [handle_block_request]
    rw [foldl_append_guard _ _ _ (fun i hi => (hsafe i hi).2)]
    rw [List.nil_append]
  refine ⟨hsafe, hmap, ?_, ?_⟩
  · rw [hmap]
    exact intRange_map_getD bc.chain _ _ (by omega) (by omega)
  · intro hlt
    rw [hmap]
    have : intRange (max 0 start_index)
        (min ((bc.chain.length : ℤ) - 1) end_index) = [] := by
      rw [intRange]
      have : (min ((bc.chain.length : ℤ) - 1) end_index + 1 -
          max 0 start_index).toNat = 0 := by omega
      rw [this]
      rfl
    rw [this]
    rfl

/-! ### Claim C4 -/

/-- C4: for two competing block-1 candidates over the same genesis block
(the local chain holds `l` at index 1, the incoming candidate `b` has
index 1 and extends the genesis hash, and the hashes differ), fork
handling keeps exactly the candidate with the lexicographically smaller
block hash: the local suffix is replaced by `[genesis, b]` when `b`'s hash
is smaller, the chain is left untouched otherwise, and in both cases the
surviving block-1 hash is the minimum of the two hashes (with the genesis
block preserved at index 0) — the same outcome on every node holding
either candidate. -/
theorem C4_fork_block1_smaller_hash (bc : Blockchain) (b g l : Block)
    (rest : List Block) (hchain : bc.chain = g :: l :: rest)
    (hidx : b.index = 1) (hprev : b.previous_hash = g.hash)
    (hne : b.hash ≠ l.hash) :
    (b.hash < l.hash →
      handle_fork bc b =
        ({ bc with
            chain := [g, b],
            pending_transactions :=
              returnTxsToPool bc.pending_transactions (l :: rest) }, true)) ∧
    (l.hash < b.hash → handle_fork bc b = (bc, false)) ∧
    ((handle_fork bc b).1.chain.getD 1 defaultBlock).hash =
      min b.hash l.hash ∧
    (handle_fork bc b).1.chain.getD 0 defaultBlock = g := by
  have hrepl : b.hash < l.hash →
      handle_fork bc b =
        ({ bc with
            chain := [g, b],
            pending_transactions :=
              returnTxsToPool bc.pending_transactions (l :: rest) }, true) := by
    intro hlt
    simp [handle_fork, hchain, hidx, hprev, hlt]
  have hkeep : l.hash < b.hash → handle_fork bc b = (bc, false) := by
    intro hgt
    have hnlt : ¬ b.hash < l.hash := lt_asymm hgt
    simp [handle_fork, hchain, hidx, hprev, hnlt]
  refine ⟨hrepl, hkeep, ?_, ?_⟩
  · rcases lt_trichotomy b.hash l.hash with hlt | heq | hgt
    · rw [hrepl hlt]
      simp [min_eq_left (le_of_lt hlt)]
    · exact absurd heq hne
    · rw [hkeep hgt]
      simp [hchain, min_eq_right (le_of_lt hgt)]
  · rcases lt_trichotomy b.hash l.hash with hlt | heq | hgt
    · rw [hrepl hlt]
      simp
    · exact absurd heq hne
    · rw [hkeep hgt]
      simp [hchain]

/-- C4 witness: a local chain `[genesis, l]` with block-1 hash "c"
receiving a competing block-1 candidate with smaller hash "b" replaces its
suffix with the incoming candidate. -/
theorem C4_witness :
    handle_fork
        (Blockchain.mk [⟨0, 0, [], "0", "genesis", 0, "g"⟩,
          ⟨1, 0, [], "g", "v", 0, "c"⟩] [] [] [] 6)
        ⟨1, 0, [], "g", "w", 0, "b"⟩ =
      (Blockchain.mk
        [⟨0, 0, [], "0", "genesis", 0, "g"⟩, ⟨1, 0, [], "g", "w", 0, "b"⟩]
        (returnTxsToPool [] [⟨1, 0, [], "g", "v", 0, "c"⟩]) [] [] 6, true) :=
  (C4_fork_block1_smaller_hash
      (Blockchain.mk [⟨0, 0, [], "0", "genesis", 0, "g"⟩,
        ⟨1, 0, [], "g", "v", 0, "c"⟩] [] [] [] 6)
      ⟨1, 0, [], "g", "w", 0, "b"⟩ ⟨0, 0, [], "0", "genesis", 0, "g"⟩
      ⟨1, 0, [], "g", "v", 0, "c"⟩ [] rfl rfl rfl (by decide)).1
    (by rw [String.lt_iff_toList_lt]; decide)

/-! ### Claim C5 -/

theorem pickByWeight_mem (vs : List (String × ℚ)) (acc r : ℚ) (v : String)
    (h : pickByWeight vs acc r = some v) : v ∈ vs.map Prod.fst := by
  induction vs generalizing acc with
  | nil => simp [pickByWeight] at h
  | cons p rest ih =>
    obtain ⟨pv, pw⟩ := p
    rw [pickByWeight] at h
    by_cases hc : acc + pw > r
    · rw [if_pos hc] at h
      cases h
      simp
    · rw [if_neg hc] at h
      simp only [List.map_cons, List.mem_cons]
      exact Or.inr (ih _ h)

/-- The zero-total-weight branch of select_proposer, isolated. -/
theorem select_proposer_total_zero (height round : ℕ)
    (validators : List String) (stakes : List (String × StakeInfo))
    (hne : validators ≠ [])
    (htot : (validatorWeights stakes validators).sum = 0) :
    select_proposer height round validators stakes =
      validators.get? (proposerSeedHash height round % validators.length) := by
  have hempty : validators.isEmpty = false := by
    cases validators with
    | nil => exact absurd rfl hne
    | cons x xs => rfl
  simp only [select_proposer, hempty, Bool.false_eq_true, if_false,
    if_pos htot]

/-- The zero-total-weight branch of the spec transcription, isolated. -/
theorem spec_select_proposer_total_zero (height round : ℕ)
    (validators : List String) (stakes : List (String × StakeInfo))
    (hne : validators ≠ [])
    (htot : (validatorWeights stakes (sortByAddress validators)).sum = 0) :
    spec_select_proposer height round validators stakes =
      (sortByAddress validators).get?
        (proposerSeedHash height round % validators.length) := by
  have hempty : validators.isEmpty = false := by
    cases validators with
    | nil => exact absurd rfl hne
    | cons x xs => rfl
  simp only [spec_select_proposer, hempty, Bool.false_eq_true, if_false,
    if_pos htot]

set_option maxRecDepth 40000 in
/-- C5 counterexample: two validators registered in the order B, A, both
with zero-weight stakes (fresh deposits, age 0 — exactly the state right
after staking).  For height 1, round 1 the code picks from the validator
list in REGISTRATION order, `["B", "A"][seed mod 2]`, while the spec picks
from the ADDRESS-SORTED order, `["A", "B"][seed mod 2]`; whichever parity
the seed has, the two proposers differ. -/
theorem C5_counterexample :
    select_proposer 1 1 ["B", "A"]
        [("B", ⟨"B", 5, 0, 0⟩), ("A", ⟨"A", 7, 0, 0⟩)] ≠
      spec_select_proposer 1 1 ["B", "A"]
        [("B", ⟨"B", 5, 0, 0⟩), ("A", ⟨"A", 7, 0, 0⟩)] := by
  have hBA : ¬ (("B" : String) < "A") := by
    rw [String.lt_iff_toList_lt]
    decide
  have hsort : sortByAddress ["B", "A"] = ["A", "B"] := by
    show insertSorted "B" (sortByAddress ["A"]) = ["A", "B"]
    rw [show sortByAddress ["A"] = ["A"] from rfl]
    rw [insertSorted, if_neg hBA]
    rfl
  have hw1 : (validatorWeights
      [("B", ⟨"B", 5, 0, 0⟩), ("A", ⟨"A", 7, 0, 0⟩)] ["B", "A"]).sum = 0 := by
    simp [validatorWeights, lookupStake, List.find?, StakeInfo.get_weight]
  have hw2 : (validatorWeights
      [("B", ⟨"B", 5, 0, 0⟩), ("A", ⟨"A", 7, 0, 0⟩)]
      (sortByAddress ["B", "A"])).sum = 0 := by
    rw [hsort]
    simp [validatorWeights, lookupStake, List.find?, StakeInfo.get_weight]
  rw [select_proposer_total_zero 1 1 _ _ (by simp) hw1,
    spec_select_proposer_total_zero 1 1 _ _ (by simp) hw2, hsort]
  show ["B", "A"].get? (proposerSeedHash 1 1 % 2) ≠
    ["A", "B"].get? (proposerSeedHash 1 1 % 2)
  intro heq
  rcases Nat.mod_two_eq_zero_or_one (proposerSeedHash 1 1) with h | h <;>
    rw [h] at heq <;> simp at heq

/-- C5 (amended): proposer selection is the deterministic function of the
seed `sha256(f"{height}_{round}")` and the validator LIST in registration
order (the code never sorts by address): with zero total weight the
proposer is `validators[seed mod n]` in list order, and in every case some
member of the validator list is selected (the weighted walk compares
cumulative weights against `(seed / 2^256) · totalWeight`, falling back to
the first validator).  Nodes agree when they hold the same validator list
(same order) and stake snapshots. -/
theorem C5_select_proposer_characterization (height round : ℕ)
    (validators : List String) (stakes : List (String × StakeInfo))
    (hne : validators ≠ []) :
    (∃ v, select_proposer height round validators stakes = some v ∧
      v ∈ validators) ∧
    ((validatorWeights stakes validators).sum = 0 →
      select_proposer height round validators stakes =
        validators.get? (proposerSeedHash height round % validators.length)) := by
  have hempty : validators.isEmpty = false := by
    cases validators with
    | nil => exact absurd rfl hne
    | cons x xs => rfl
  constructor
  · simp only [select_proposer, hempty, Bool.false_eq_true, if_false]
    by_cases htot : (validatorWeights stakes validators).sum = 0
    · rw [if_pos htot]
      have hk : proposerSeedHash height round % validators.length <
          validators.length :=
        Nat.mod_lt _ (List.length_pos.mpr hne)
      exact ⟨validators.get ⟨_, hk⟩, List.get?_eq_get hk, List.get_mem _ _ _⟩
    · rw [if_neg htot]
      cases hpick : pickByWeight (validators.zip (validatorWeights stakes validators))
          0 (((proposerSeedHash height round : ℚ) / 2 ^ 256) *
            (validatorWeights stakes validators).sum) with
      | some v =>
        refine ⟨v, rfl, ?_⟩
        have hmem := pickByWeight_mem _ _ _ _ hpick
        rwa [List.map_fst_zip _ _ (by simp [validatorWeights])] at hmem
      | none =>
        cases validators with
        | nil => exact absurd rfl hne
        | cons x xs => exact ⟨x, rfl, List.mem_cons_self x xs⟩
  · intro htot
    simp only [select_proposer, hempty, Bool.false_eq_true, if_false,
      if_pos htot]

/-- C5 witness: with a single registered validator the engine selects it
(and it is a member of the validator list). -/
theorem C5_witness :
    ∃ v, select_proposer 1 1 ["A"] [] = some v ∧ v ∈ ["A"] :=
  (C5_select_proposer_characterization 1 1 ["A"] [] (by simp)).1


end Posv0
